import Mathlib

/-!
Shallow embedding of `tabular_sampling/scripts/clean_data.py` and
`jahs_bench/public_api.py`.

A `MetricsTable` is modelled as a `List Row`.  A `Row` carries the three
index levels (`taskid`, `modelIdx`, `epoch` — pandas MultiIndex levels
"taskid"/"model_idx"/"Epoch"), the projection of its `model_config` onto
the fidelity parameters (`fid`, used only for the subsampler's groupby),
and the remaining column values as `cells`, where `none` models a NaN.
Filtering stages `data.loc[mask]` / `data.drop(labels)` are modelled as
`List.filter`, which is exact for tables whose row keys are unique (the
pandas index is a key).
-/

deriving instance DecidableEq for Except

namespace CleanData

structure Row where
  taskid : Nat
  modelIdx : Nat
  epoch : Int
  fid : Nat
  cells : List (Option Int)
deriving DecidableEq, Repr

/-- The run identity: the (taskid, model_idx) pair of index levels. -/
def runId (r : Row) : Nat × Nat := (r.taskid, r.modelIdx)

/-- The full row key: ((taskid, model_idx), Epoch). -/
def rowKey (r : Row) : (Nat × Nat) × Int := (runId r, r.epoch)

/-- `data.isna().any(axis=1)` for one row: some cell is NaN. -/
def hasNan (r : Row) : Bool := r.cells.any (fun c => c.isNone)

/-- Stage 1, `clean` line 85:
`data = data.loc[data.index.get_level_values("Epoch") <= epochs]`. -/
def truncate (epochs : Int) (t : List Row) : List Row :=
  t.filter (fun r => decide (r.epoch ≤ epochs))

/-- Modelled from the spec: `metric_df_ops.get_nepochs` (library file not in
src/) computes, per run, the maximum Epoch value present — the "observed run
length" — here as `Option` (none for a run with no rows). -/
def runMaxEpoch (t : List Row) (rid : Nat × Nat) : Option Int :=
  ((t.filter (fun r => decide (runId r = rid))).map Row.epoch).max?

/-- Stage 2, `clean` lines 87–91.  NOTE: the source guards this stage with
`if keep_incomplete_runs:` (it runs only when the flag IS given) and keeps
the rows satisfying `nepochs.nepochs <= epochs` (the reindex/ffill makes
every row carry its run's observed length, per the spec's description of
`get_nepochs`). -/
def completenessStage (keepIncompleteRuns : Bool) (epochs : Int) (t : List Row) : List Row :=
  if keepIncompleteRuns then
    t.filter (fun r =>
      match runMaxEpoch t (runId r) with
      | some m => decide (m ≤ epochs)
      | none => false)
  else t

/-- The runs owning at least one NaN row:
`nan_ind.droplevel("Epoch").drop_duplicates()` (line 99). -/
def nanRuns (t : List Row) : List (Nat × Nat) :=
  ((t.filter hasNan).map runId).dedup

/-- Stage 3, `clean` lines 93–101: with `keep_nan_configs` the dropped index
set is generalized to whole runs, otherwise exactly the NaN rows are dropped
(`data.drop(nan_ind)`, modelled as a filter — exact for unique row keys). -/
def nanStage (keepNanConfigs : Bool) (t : List Row) : List Row :=
  if keepNanConfigs then
    t.filter (fun r => decide (runId r ∉ nanRuns t))
  else
    t.filter (fun r => !hasNan r)

/-- `DataFrame.head(n)` / `GroupBy.head(n)` semantics per group: for `n ≥ 0`
the first `n` elements, for `n < 0` all but the last `|n|` elements. -/
def pdHead (n : Int) (l : List α) : List α :=
  if 0 ≤ n then l.take n.toNat else l.take (l.length - (-n).toNat)

/-- Modelled from the spec: `metric_df_ops.get_configs` (library file not in
src/) extracts one representative row per run, in first-encounter order
(`seen` accumulates the run ids already represented). -/
def repRowsAux (seen : List (Nat × Nat)) : List Row → List Row
  | [] => []
  | r :: l =>
      if runId r ∈ seen then repRowsAux seen l
      else r :: repRowsAux (runId r :: seen) l

/-- One representative row per run, first-encounter order
(`get_configs(df)[fidelity_params]` in `subsample_df`, line 54). -/
def reps (t : List Row) : List Row := repRowsAux [] t

/-- The distinct fidelity-group values among the representatives
(the groupby keys of `fids.groupby(fidelity_params)`, line 56). -/
def groupList (t : List Row) : List Nat := ((reps t).map Row.fid).dedup

/-- Runs per fidelity group (`g.count()` of the placeholder column, line 57). -/
def groupCount (t : List Row) (g : Nat) : Nat :=
  ((reps t).filter (fun r => decide (r.fid = g))).length

/-- `counts.min()` over the groups; `none` models the NaN obtained on an
empty frame (no runs at all). -/
def minCount? (t : List Row) : Option Nat :=
  ((groupList t).map (groupCount t)).min?

/-- `min_sample_size = math.floor(counts.min() * subsample_frac)` (line 58). -/
def subTarget (frac : ℚ) (m : Nat) : Int := Int.floor ((m : ℚ) * frac)

/-- The runs selected by `configs = g.head(min_sample_size)` (line 60): per
fidelity group, the head of that group's representatives.  (Concatenation
order across groups is irrelevant: the list is only used as a membership
set by the index join of lines 64–74.) -/
def selRuns (frac : ℚ) (t : List Row) (m : Nat) : List (Nat × Nat) :=
  (groupList t).flatMap (fun g =>
    (pdHead (subTarget frac m) ((reps t).filter (fun r => decide (r.fid = g)))).map runId)

/-- The row selection of `subsample_df` lines 64–74: `idx1.join(idx2, ...)`
keeps exactly the rows whose run id occurs among the selected configs,
in their original order (`df.loc[sel]`). -/
def subsampleCore (frac : ℚ) (t : List Row) (m : Nat) : List Row :=
  t.filter (fun r => decide (runId r ∈ selRuns frac t m))

/-- `clean_data.py` raises none of the spec's taxonomy (§7); the only
exception the subsampling path can raise is `math.floor(nan)` on an empty
table (`ValueError`). -/
inductive CleanError
  | invalidHorizon
  | invalidFraction
  | valueError
deriving DecidableEq, Repr

/-- `subsample_df(df, subsample_frac)` (lines 51–76).  The source performs
no validation of `subsample_frac`; on a table with no runs, `counts.min()`
is NaN and `math.floor` raises a `ValueError`. -/
def subsample_df (frac : ℚ) (t : List Row) : Except CleanError (List Row) :=
  match minCount? t with
  | none => .error .valueError
  | some m => .ok (subsampleCore frac t m)

/-- Stage 4, `clean` lines 103–105: `if subsample < 1.0: subsample_df(...)`;
fractions ≥ 1.0 (including exactly 1.0) skip the stage. -/
def subsampleStage (frac : ℚ) (t : List Row) : Except CleanError (List Row) :=
  if frac < 1 then subsample_df frac t else .ok t

/-- The composed row-filtering pipeline of `clean` (lines 84–105), i.e. the
table reaching the anonymization stage.  The source contains no `raise` or
`assert` for the horizon or the fraction, so the only error path is the one
inside `subsample_df`. -/
def cleanExc (epochs : Int) (keepIncompleteRuns keepNanConfigs : Bool)
    (frac : ℚ) (t : List Row) : Except CleanError (List Row) :=
  let d1 := truncate epochs t
  let d2 := completenessStage keepIncompleteRuns epochs d1
  let d3 := nanStage keepNanConfigs d2
  subsampleStage frac d3

/-- A row after anonymization (stage 5 of `clean`, lines 107–114): the index
is (ModelIndex, Epoch) and the original (taskid, model_idx) identity is gone. -/
structure ARow where
  modelIdx : Nat
  epoch : Int
  cells : List (Option Int)
deriving DecidableEq, Repr

/-- Lexicographic order on run ids; `unstack("Epoch")` sorts the remaining
index levels. -/
def runLe (a b : Nat × Nat) : Bool :=
  decide (a.1 < b.1 ∨ (a.1 = b.1 ∧ a.2 ≤ b.2))

/-- The distinct run ids in sorted order: the index of the wide table
produced by `data.unstack("Epoch")` (line 108). -/
def sortedRuns (t : List Row) : List (Nat × Nat) :=
  ((t.map runId).dedup).mergeSort runLe

/-- The distinct Epoch values in sorted order: the inner column level of the
wide table (one column block per Epoch). -/
def sortedEpochs (t : List Row) : List Int :=
  ((t.map Row.epoch).dedup).mergeSort (fun a b => decide (a ≤ b))

/-- Cell lookup of the wide table at (run, epoch): the unique row with that
key, when present (unstack fills the others with NaN). -/
def findRow (t : List Row) (rid : Nat × Nat) (e : Int) : Option Row :=
  t.find? (fun r => decide (runId r = rid ∧ r.epoch = e))

/-- Stage 5, lines 107–112: `unstack("Epoch")`, positional `reset_index`
(run number `i` becomes ModelIndex `i`), then `stack("Epoch")`.  `stack`
drops the rows that are entirely NaN — both the filler rows unstack created
for (run, epoch) pairs absent from `t` and any original all-NaN row. -/
def anonymize (t : List Row) : List ARow :=
  (sortedRuns t).enum.flatMap (fun p =>
    (sortedEpochs t).filterMap (fun e =>
      match findRow t p.2 e with
      | some r => if r.cells.any (fun c => c.isSome) then some ⟨p.1, e, r.cells⟩ else none
      | none => none))

/-- Position of the first occurrence of `x` in `l` (the length of `l` when
absent). -/
def posIn (l : List (Nat × Nat)) (x : Nat × Nat) : Nat :=
  match l with
  | [] => 0
  | a :: l' => if a = x then 0 else posIn l' x + 1

/-- The image of one original row under the anonymization: the run identity
is replaced by the run's position in the sorted distinct run list (the dense
zero-based ModelIndex produced by the positional `reset_index`), everything
else is untouched.  Used to state what `anonymize` does row-wise. -/
def anonRow (t : List Row) (r : Row) : ARow :=
  ⟨posIn (sortedRuns t) (runId r), r.epoch, r.cells⟩

end CleanData

namespace JahsBench

/-! Shallow embedding of `jahs_bench/public_api.py`. -/

/-- The possible shapes of the `model_path` argument of
`Benchmark.__init__`: its default value is the sentinel `True`. -/
inductive PyVal
  | pynone
  | pystr (s : String)
  | pypath (p : String)
  | pybool (b : Bool)
deriving DecidableEq, Repr

/-- The ways `Benchmark.__init__` can raise before the surrogate is loaded. -/
inductive InitError
  | assertPathRequired
  | assertNotDirectory
  | attributeErrorNoExists
deriving DecidableEq, Repr

/-- `Benchmark.__init__` (lines 15–23) up to (and excluding) the surrogate
load: strings are coerced to `Path`; `assert model_path is not None` raises
`assertPathRequired`; `model_path.exists() and model_path.is_dir()`
(abstracted as the oracle `dirExists`) raises `assertNotDirectory` when
false; on a non-`Path` value such as a `bool`, attribute lookup of
`.exists` raises an `AttributeError` instead.  `.ok ()` means control
reached `XGBSurrogate.load(model_path)`. -/
def benchmark_init (dirExists : String → Bool) (model_path : PyVal) :
    Except InitError Unit :=
  let mp : PyVal := match model_path with
    | .pystr s => .pypath s
    | v => v
  match mp with
  | .pynone => .error .assertPathRequired
  | .pypath p => if dirExists p then .ok () else .error .assertNotDirectory
  | .pybool _ => .error .attributeErrorNoExists
  | .pystr _ => .error .attributeErrorNoExists

/-- Modelled from the spec: `XGBSurrogate` (library file not in src/) is a
pre-trained regression model with named output quantities (`label_headers`)
whose `predict` produces a fixed-size numeric vector (one value per label
header; that size condition is a hypothesis of the theorems below). -/
structure Surrogate where
  labelHeaders : List String
  predictFn : List (String × Int) → List Int

/-- `features.loc[:, "epoch"] = nepochs` on a one-row frame: overwrite the
column when present, else append it as a new last column. -/
def setColumn (row : List (String × Int)) (k : String) (v : Int) :
    List (String × Int) :=
  if row.any (fun p => decide (p.1 = k)) then
    row.map (fun p => if p.1 = k then (k, v) else p)
  else row ++ [(k, v)]

/-- `Benchmark._benchmark_surrogate` (lines 28–37): build the one-row
feature frame from the config dict, append the epoch, predict, and return
`{k: outputs[0][i] for i, k in enumerate(surrogate.label_headers.values)}`
(a mapping built in label-header order, modelled as an association list;
faithful to the Python dict when the label headers are distinct). -/
def benchmark_surrogate (s : Surrogate) (config : List (String × Int))
    (nepochs : Int) : List (String × Int) :=
  let features := setColumn config "epoch" nepochs
  let outputs := s.predictFn features
  s.labelHeaders.enum.map (fun p => (p.2, outputs.getD p.1 0))

end JahsBench

namespace CleanData

/-- Filtering with a pointwise-weaker predicate (on members) keeps at least
as many rows. -/
theorem length_filter_le_of_imp {l : List Row} {p q : Row → Bool}
    (h : ∀ a ∈ l, p a = true → q a = true) :
    (l.filter p).length ≤ (l.filter q).length := by
  induction l with
  | nil => simp
  | cons a l ih =>
    have ha := h a (List.mem_cons_self a l)
    have ih' := ih (fun b hb => h b (List.mem_cons_of_mem a hb))
    by_cases hp : p a = true
    · simp only [List.filter_cons, hp, ha hp, if_true, List.length_cons]
      omega
    · simp only [List.filter_cons, hp, if_false, Bool.false_eq_true]
      split
      · simp only [List.length_cons]; omega
      · exact ih'

/-- The only exception `subsample_df`'s stage can produce is the
`ValueError` from `math.floor(nan)`. -/
theorem subsampleStage_error_eq (frac : ℚ) (t : List Row) (e : CleanError)
    (h : subsampleStage frac t = Except.error e) : e = CleanError.valueError := by
  unfold subsampleStage subsample_df at h
  split at h
  · split at h
    · exact (Except.error.injEq _ _).mp h.symm
    · exact absurd h (by simp)
  · exact absurd h (by simp)

/-- `repRowsAux` only consults `seen` through membership. -/
theorem repRowsAux_congr (seen1 seen2 : List (Nat × Nat)) (l : List Row)
    (h : ∀ a, a ∈ seen1 ↔ a ∈ seen2) :
    repRowsAux seen1 l = repRowsAux seen2 l := by
  induction l generalizing seen1 seen2 with
  | nil => rfl
  | cons r l ih =>
    unfold repRowsAux
    by_cases hm : runId r ∈ seen1
    · rw [if_pos hm, if_pos ((h _).mp hm), ih seen1 seen2 h]
    · rw [if_neg hm, if_neg (fun hc => hm ((h _).mpr hc))]
      have : ∀ a, a ∈ runId r :: seen1 ↔ a ∈ runId r :: seen2 := by
        intro a
        simp only [List.mem_cons]
        exact or_congr Iff.rfl (h a)
      rw [ih _ _ this]

/-- Adding a run id to `seen` removes exactly that run's representative. -/
theorem repRowsAux_cons_seen (x : Nat × Nat) (seen : List (Nat × Nat))
    (l : List Row) :
    repRowsAux (x :: seen) l =
      (repRowsAux seen l).filter (fun r => decide (runId r ≠ x)) := by
  induction l generalizing seen with
  | nil => rfl
  | cons r l ih =>
    unfold repRowsAux
    by_cases hx : runId r = x
    · rw [if_pos (by simp [hx])]
      by_cases hs : runId r ∈ seen
      · rw [if_pos hs, ih seen]
      · rw [if_neg hs, List.filter_cons_of_neg (by simp [hx]), hx, ih seen,
          List.filter_filter]
        exact (List.filter_congr (fun a _ => by
          by_cases hax : runId a = x <;> simp [hax])).symm
    · by_cases hs : runId r ∈ seen
      · rw [if_pos (by simp [hs]), if_pos hs, ih seen]
      · rw [if_neg (by simp [hx, hs]), if_neg hs,
          List.filter_cons_of_pos (by simp [hx]),
          repRowsAux_congr (runId r :: x :: seen) (x :: runId r :: seen) l
            (fun a => by simp only [List.mem_cons]; tauto),
          ih (runId r :: seen)]

/-- Extracting representatives commutes with any run-level row filter. -/
theorem repRowsAux_filter_runlevel (p : Nat × Nat → Bool)
    (seen : List (Nat × Nat)) (l : List Row) :
    repRowsAux seen (l.filter (fun r => p (runId r))) =
      (repRowsAux seen l).filter (fun r => p (runId r)) := by
  induction l generalizing seen with
  | nil => rfl
  | cons r l ih =>
    have hfc : ∀ m : List Row, p (runId r) = true →
        (r :: m).filter (fun a => p (runId a)) = r :: m.filter (fun a => p (runId a)) :=
      fun m hp => List.filter_cons_of_pos hp
    have hfd : ∀ m : List Row, ¬p (runId r) = true →
        (r :: m).filter (fun a => p (runId a)) = m.filter (fun a => p (runId a)) :=
      fun m hp => List.filter_cons_of_neg hp
    have hunf : ∀ (s : List (Nat × Nat)) (m : List Row), repRowsAux s (r :: m) =
        if runId r ∈ s then repRowsAux s m else r :: repRowsAux (runId r :: s) m :=
      fun s m => rfl
    by_cases hp : p (runId r) = true
    · rw [hfc l hp, hunf seen, hunf seen]
      by_cases hs : runId r ∈ seen
      · rw [if_pos hs, if_pos hs, ih seen]
      · rw [if_neg hs, if_neg hs, hfc _ hp, ih (runId r :: seen)]
    · rw [hfd l hp, hunf seen]
      by_cases hs : runId r ∈ seen
      · rw [if_pos hs, ih seen]
      · rw [if_neg hs, hfd _ hp, repRowsAux_cons_seen,
          List.filter_filter, ih seen]
        exact List.filter_congr (fun a _ => by
          by_cases ha : runId a = runId r
          · simp [ha, Bool.not_eq_true] at hp ⊢
            simp [hp]
          · simp [ha])

/-- Representatives are a sub-list of the table. -/
theorem repRowsAux_sublist (seen : List (Nat × Nat)) (l : List Row) :
    (repRowsAux seen l).Sublist l := by
  induction l generalizing seen with
  | nil => exact List.Sublist.refl _
  | cons r l ih =>
    unfold repRowsAux
    by_cases hs : runId r ∈ seen
    · rw [if_pos hs]
      exact (ih seen).trans (List.sublist_cons_self r l)
    · rw [if_neg hs]
      exact (ih (runId r :: seen)).cons₂ r

/-- Representatives carry pairwise distinct run ids, none from `seen`. -/
theorem repRowsAux_nodup (seen : List (Nat × Nat)) (l : List Row) :
    ((repRowsAux seen l).map runId).Nodup ∧
      ∀ r ∈ repRowsAux seen l, runId r ∉ seen := by
  induction l generalizing seen with
  | nil => exact ⟨List.nodup_nil, by intro r hr; simp [repRowsAux] at hr⟩
  | cons r l ih =>
    unfold repRowsAux
    by_cases hs : runId r ∈ seen
    · rw [if_pos hs]
      exact ih seen
    · rw [if_neg hs]
      obtain ⟨hnd, hseen⟩ := ih (runId r :: seen)
      refine ⟨List.nodup_cons.mpr ⟨?_, hnd⟩, ?_⟩
      · intro hc
        obtain ⟨r', hr', he⟩ := List.mem_map.mp hc
        exact hseen r' hr' (he ▸ List.mem_cons_self _ _)
      · intro r' hr'
        rcases List.mem_cons.mp hr' with h | h
        · exact h ▸ hs
        · exact fun hc => hseen r' h (List.mem_cons_of_mem _ hc)

/-- Filtering a duplicate-free list down to a sub-list by membership in that
sub-list recovers exactly the sub-list. -/
theorem filter_mem_of_sublist {α : Type} [DecidableEq α] :
    ∀ {l s : List α}, s.Sublist l → l.Nodup →
      l.filter (fun a => decide (a ∈ s)) = s := by
  intro l s hs
  induction hs with
  | slnil => intro _; rfl
  | @cons l1 l2 a hsub ih =>
    intro hn
    have hna : a ∉ l2 := (List.nodup_cons.mp hn).1
    have ha1 : a ∉ l1 := fun hc => hna (hsub.subset hc)
    rw [List.filter_cons_of_neg (by simpa using ha1)]
    exact ih (List.nodup_cons.mp hn).2
  | @cons₂ l1 l2 a hsub ih =>
    intro hn
    have hna : a ∉ l2 := (List.nodup_cons.mp hn).1
    rw [List.filter_cons_of_pos (by simp)]
    have h2 : List.filter (fun x => decide (x ∈ a :: l1)) l2 =
        List.filter (fun x => decide (x ∈ l1)) l2 :=
      List.filter_congr (fun x hx => by
        have hxa : x ≠ a := fun he => hna (he ▸ hx)
        simp [hxa])
    rw [h2, ih (List.nodup_cons.mp hn).2]

end CleanData

namespace CleanData

/-- C1 (code_bug): `clean` lines 87–91 run the completeness filter only when
`keep_incomplete_runs` IS given, and keep the rows whose run length is
`≤ epochs` — on the failing input (one run with epochs {0, 1}, horizon 2,
flag absent) the stage is skipped and the incomplete run's rows are all
retained, contrary to the claim; even with the flag given the filter keeps
every row (after truncation every run length is ≤ the horizon). -/
theorem C1_completeness_filter_inverted :
    runMaxEpoch [⟨0, 0, 0, 0, [some 0]⟩, ⟨0, 0, 1, 0, [some 1]⟩] (0, 0) = some 1 ∧
    completenessStage false 2 [⟨0, 0, 0, 0, [some 0]⟩, ⟨0, 0, 1, 0, [some 1]⟩] =
      [⟨0, 0, 0, 0, [some 0]⟩, ⟨0, 0, 1, 0, [some 1]⟩] ∧
    completenessStage true 2 [⟨0, 0, 0, 0, [some 0]⟩, ⟨0, 0, 1, 0, [some 1]⟩] =
      [⟨0, 0, 0, 0, [some 0]⟩, ⟨0, 0, 1, 0, [some 1]⟩] := by
  refine ⟨rfl, rfl, rfl⟩

/-- C2 (counterexample): with the horizon `epochs = 0 ≤ 0` the pipeline does
not fail — it returns the truncated, cleaned table normally. -/
theorem C2_horizon_zero_no_error :
    cleanExc 0 false false 1 [⟨0, 0, 0, 0, [some 5]⟩, ⟨0, 0, 1, 0, [some 6]⟩] =
      Except.ok [⟨0, 0, 0, 0, [some 5]⟩] := by
  rfl

/-- C2 (amended): `clean` performs no horizon validation at all — no input
ever produces an `InvalidHorizon` error; a non-positive horizon simply
truncates to the rows with `Epoch ≤ epochs`. -/
theorem C2_no_horizon_validation (epochs : Int) (ki kn : Bool) (frac : ℚ)
    (t : List Row) :
    cleanExc epochs ki kn frac t ≠ Except.error CleanError.invalidHorizon := by
  intro h
  unfold cleanExc at h
  exact absurd (subsampleStage_error_eq _ _ _ h) (by simp)

/-- C3 (counterexample): with the fraction `frac = 0 ≤ 0` the pipeline does
not fail — subsampling proceeds with target 0 and returns an empty table. -/
theorem C3_fraction_zero_no_error :
    cleanExc 5 false false 0 [⟨0, 0, 0, 0, [some 5]⟩] = Except.ok [] := by
  have h : subTarget 0 1 = 0 := by simp [subTarget]
  show subsampleStage 0 [⟨0, 0, 0, 0, [some 5]⟩] = Except.ok []
  unfold subsampleStage
  rw [if_pos (by norm_num)]
  unfold subsample_df
  rw [show minCount? [⟨0, 0, 0, 0, [some 5]⟩] = some 1 from rfl]
  unfold subsampleCore selRuns
  simp only [h]
  rfl

/-- C3 (amended): `clean` performs no fraction validation at all — no input
ever produces an `InvalidFraction` error; fractions ≥ 1 skip the subsampling
stage and fractions ≤ 0 run it with a non-positive target. -/
theorem C3_no_fraction_validation (epochs : Int) (ki kn : Bool) (frac : ℚ)
    (t : List Row) :
    cleanExc epochs ki kn frac t ≠ Except.error CleanError.invalidFraction := by
  intro h
  unfold cleanExc at h
  exact absurd (subsampleStage_error_eq _ _ _ h) (by simp)

/-- C4 (counterexample): at `frac = 1` (inside the claimed range `(0, 1]`)
the pipeline's subsampling stage is skipped (`if subsample < 1.0:`), so a
fidelity group larger than the smallest keeps all of its runs instead of
`floor(min_group_count × frac) = min_group_count`. -/
theorem C4_frac_one_counterexample :
    subsampleStage 1 [⟨0, 0, 0, 0, [some 1]⟩, ⟨0, 1, 0, 1, [some 1]⟩, ⟨0, 2, 0, 1, [some 1]⟩] =
      Except.ok [⟨0, 0, 0, 0, [some 1]⟩, ⟨0, 1, 0, 1, [some 1]⟩, ⟨0, 2, 0, 1, [some 1]⟩] ∧
    minCount? [⟨0, 0, 0, 0, [some 1]⟩, ⟨0, 1, 0, 1, [some 1]⟩, ⟨0, 2, 0, 1, [some 1]⟩] = some 1 ∧
    groupCount [⟨0, 0, 0, 0, [some 1]⟩, ⟨0, 1, 0, 1, [some 1]⟩, ⟨0, 2, 0, 1, [some 1]⟩] 1 ≠
      (subTarget 1 1).toNat := by
  refine ⟨?_, rfl, ?_⟩
  · unfold subsampleStage
    rw [if_neg (by norm_num)]
  · rw [show subTarget 1 1 = 1 by unfold subTarget; norm_num]
    decide

/-- C4 (amended): for fractions in the open interval `(0, 1)` — the ones for
which `clean` actually invokes `subsample_df` — every fidelity group of the
output contains exactly `floor(min_group_count × frac)` distinct runs
(`subTarget frac m` with `m` the minimum pre-subsample group count), the
same target for every group; at `frac = 1` the stage is skipped. -/
theorem C4_subsample_group_counts (frac : ℚ) (t : List Row) (g : Nat) (m : Nat)
    (out : List Row) (h0 : 0 < frac) (h1 : frac < 1)
    (hm : minCount? t = some m) (hg : g ∈ groupList t)
    (hout : subsample_df frac t = Except.ok out) :
    groupCount out g = (subTarget frac m).toNat := by
  unfold subsample_df at hout
  rw [hm] at hout
  have hout' : subsampleCore frac t m = out := (Except.ok.injEq _ _).mp hout
  subst hout'
  have hndmap : ((reps t).map runId).Nodup := (repRowsAux_nodup [] t).1
  have hnd : (reps t).Nodup := List.Nodup.of_map runId hndmap
  have htgt0 : 0 ≤ subTarget frac m :=
    Int.floor_nonneg.mpr (mul_nonneg (Nat.cast_nonneg m) (le_of_lt h0))
  have htgtm : subTarget frac m ≤ (m : Int) := by
    have hh : (m : ℚ) * frac ≤ (m : ℚ) :=
      mul_le_of_le_one_right (Nat.cast_nonneg m) (le_of_lt h1)
    calc subTarget frac m ≤ ⌊(m : ℚ)⌋ := Int.floor_le_floor hh
    _ = (m : Int) := Int.floor_natCast m
  have hcnt : m ≤ groupCount t g := by
    unfold minCount? at hm
    obtain ⟨-, hle⟩ := List.min?_eq_some_iff'.mp hm
    exact hle _ (List.mem_map_of_mem (groupCount t) hg)
  have hpd : ∀ g' : Nat,
      (pdHead (subTarget frac m) ((reps t).filter (fun a => decide (a.fid = g')))).Sublist
        ((reps t).filter (fun a => decide (a.fid = g'))) := by
    intro g'
    unfold pdHead
    rw [if_pos htgt0]
    exact List.take_sublist _ _
  have hreps : reps (subsampleCore frac t m) =
      (reps t).filter (fun r => decide (runId r ∈ selRuns frac t m)) :=
    repRowsAux_filter_runlevel (fun rid => decide (rid ∈ selRuns frac t m)) [] t
  have hM : ∀ r ∈ reps t,
      (decide (r.fid = g) && decide (runId r ∈ selRuns frac t m)) =
        decide (r ∈ pdHead (subTarget frac m)
          ((reps t).filter (fun a => decide (a.fid = g)))) := by
    intro r hr
    rw [← Bool.decide_and]
    apply decide_eq_decide.mpr
    constructor
    · rintro ⟨hfid, hsel⟩
      obtain ⟨g', hg', hmem⟩ := List.mem_flatMap.mp hsel
      obtain ⟨r', hr', hrid⟩ := List.mem_map.mp hmem
      have hr'grp : r' ∈ (reps t).filter (fun a => decide (a.fid = g')) :=
        (hpd g').subset hr'
      have hr'rep : r' ∈ reps t := (List.filter_sublist _).subset hr'grp
      have hrr : r' = r := List.inj_on_of_nodup_map hndmap hr'rep hr hrid
      have hfid' : r.fid = g' := by
        have := (List.mem_filter.mp hr'grp).2
        rw [hrr] at this
        exact of_decide_eq_true this
      have hgg : g' = g := by rw [← hfid', hfid]
      rw [hgg] at hr'
      exact hrr ▸ hr'
    · intro hmem
      have hgrp : r ∈ (reps t).filter (fun a => decide (a.fid = g)) :=
        (hpd g).subset hmem
      refine ⟨of_decide_eq_true (List.mem_filter.mp hgrp).2, ?_⟩
      exact List.mem_flatMap.mpr ⟨g, hg, List.mem_map_of_mem runId hmem⟩
  calc groupCount (subsampleCore frac t m) g
      = (((reps t).filter (fun r => decide (runId r ∈ selRuns frac t m))).filter
          (fun r => decide (r.fid = g))).length := by
        unfold groupCount
        rw [hreps]
    _ = ((reps t).filter
          (fun r => decide (r.fid = g) && decide (runId r ∈ selRuns frac t m))).length := by
        rw [List.filter_filter]
    _ = ((reps t).filter (fun r => decide (r ∈ pdHead (subTarget frac m)
          ((reps t).filter (fun a => decide (a.fid = g)))))).length := by
        rw [List.filter_congr hM]
    _ = (pdHead (subTarget frac m)
          ((reps t).filter (fun a => decide (a.fid = g)))).length := by
        rw [filter_mem_of_sublist ((hpd g).trans (List.filter_sublist _)) hnd]
    _ = (subTarget frac m).toNat := by
        unfold pdHead
        rw [if_pos htgt0, List.length_take]
        exact min_eq_left (le_trans (Int.toNat_le.mpr
          (le_trans htgtm (by exact_mod_cast hcnt))) (le_refl _))

/-- Witness for C4's amended theorem: two runs in one fidelity group,
`frac = 1/2`, target `⌊2 · (1/2)⌋ = 1`. -/
theorem C4_subsample_group_counts_witness :
    (0 : ℚ) < 1/2 ∧ (1/2 : ℚ) < 1 ∧
    minCount? [⟨0, 0, 0, 7, [some 1]⟩, ⟨0, 1, 0, 7, [some 2]⟩] = some 2 ∧
    7 ∈ groupList [⟨0, 0, 0, 7, [some 1]⟩, ⟨0, 1, 0, 7, [some 2]⟩] ∧
    subsample_df (1/2) [⟨0, 0, 0, 7, [some 1]⟩, ⟨0, 1, 0, 7, [some 2]⟩] =
      Except.ok [⟨0, 0, 0, 7, [some 1]⟩] ∧
    groupCount [⟨0, 0, 0, 7, [some 1]⟩] 7 = (subTarget (1/2) 2).toNat := by
  have hsub : subTarget (1/2 : ℚ) 2 = 1 := by
    unfold subTarget
    norm_num
  have hout : subsample_df (1/2 : ℚ) [⟨0, 0, 0, 7, [some 1]⟩, ⟨0, 1, 0, 7, [some 2]⟩] =
      Except.ok [⟨0, 0, 0, 7, [some 1]⟩] := by
    unfold subsample_df
    rw [show minCount? [⟨0, 0, 0, 7, [some 1]⟩, ⟨0, 1, 0, 7, [some 2]⟩] = some 2 from rfl]
    unfold subsampleCore selRuns
    simp only [hsub]
    rfl
  refine ⟨by norm_num, by norm_num, rfl, by decide, hout, ?_⟩
  exact C4_subsample_group_counts (1/2) [⟨0, 0, 0, 7, [some 1]⟩, ⟨0, 1, 0, 7, [some 2]⟩]
    7 2 [⟨0, 0, 0, 7, [some 1]⟩] (by norm_num) (by norm_num) rfl (by decide) hout

/-- C6: lenient NaN handling (`keep_nan_configs` set: drop every epoch of a
run owning a NaN) never keeps more rows than strict handling (drop exactly
the NaN rows). -/
theorem C6_lenient_le_strict (t : List Row) :
    (nanStage true t).length ≤ (nanStage false t).length := by
  unfold nanStage
  simp only [if_true]
  apply length_filter_le_of_imp
  intro r hr hkeep
  simp only [decide_eq_true_eq] at hkeep
  simp only [Bool.not_eq_true']
  by_contra hnan
  simp only [Bool.not_eq_false] at hnan
  exact hkeep (List.mem_dedup.mpr
    (List.mem_map_of_mem runId (List.mem_filter.mpr ⟨hr, hnan⟩)))

/-- C7: epoch truncation is monotone in the horizon — the rows kept at a
smaller horizon are a (order- and value-preserving) sub-list of the rows
kept at a larger one. -/
theorem C7_truncate_monotone (t : List Row) (e1 e2 : Int) (h : e1 ≤ e2) :
    (truncate e1 t).Sublist (truncate e2 t) := by
  apply List.monotone_filter_right
  intro r hr
  simp only [decide_eq_true_eq] at hr ⊢
  exact le_trans hr h

/-- Witness for C7 at a concrete table and horizons 1 ≤ 2. -/
theorem C7_truncate_monotone_witness :
    (1 : Int) ≤ 2 ∧
    (truncate 1 [⟨0, 0, 0, 0, []⟩, ⟨0, 0, 2, 0, []⟩]).Sublist
      (truncate 2 [⟨0, 0, 0, 0, []⟩, ⟨0, 0, 2, 0, []⟩]) :=
  ⟨by decide, C7_truncate_monotone [⟨0, 0, 0, 0, []⟩, ⟨0, 0, 2, 0, []⟩] 1 2 (by decide)⟩

/-- C10: each of the four row-filtering stages only removes whole rows —
the survivors are a sub-list of the stage's input (original values,
original relative order). -/
theorem C10_stages_sublist (epochs : Int) (ki kn : Bool) (frac : ℚ) (m : Nat)
    (t : List Row) :
    (truncate epochs t).Sublist t ∧ (completenessStage ki epochs t).Sublist t ∧
    (nanStage kn t).Sublist t ∧ (subsampleCore frac t m).Sublist t := by
  refine ⟨List.filter_sublist _, ?_, ?_, List.filter_sublist _⟩
  · unfold completenessStage
    split
    · exact List.filter_sublist _
    · exact List.Sublist.refl _
  · unfold nanStage
    split <;> exact List.filter_sublist _

end CleanData

namespace JahsBench

/-- Reading a list back out of its enumeration by positional lookup. -/
theorem enum_map_getD (L : List String) (out : List Int)
    (h : out.length = L.length) :
    L.enum.map (fun p => out.getD p.1 0) = out := by
  apply List.ext_getElem
  · simp [h]
  · intro i h1 h2
    simp only [List.getElem_map, List.getElem_enum]
    exact List.getD_eq_getElem out 0 h2

/-- C8: when the config does not already contain an "epoch" key, the feature
row passed to the surrogate is exactly the configuration's fields with the
epoch appended as one additional (last) feature, and the returned mapping
has exactly the model's label headers as keys, in label order, each paired
with the corresponding predicted value. -/
theorem C8_surrogate_output (s : Surrogate) (config : List (String × Int))
    (n : Int)
    (hE : config.all (fun p => decide (p.1 ≠ "epoch")) = true)
    (hlen : (s.predictFn (config ++ [("epoch", n)])).length = s.labelHeaders.length)
    (hnodup : s.labelHeaders.Nodup) :
    (benchmark_surrogate s config n).map Prod.fst = s.labelHeaders ∧
    (benchmark_surrogate s config n).map Prod.snd =
      s.predictFn (config ++ [("epoch", n)]) ∧
    ((benchmark_surrogate s config n).map Prod.fst).Nodup := by
  have hset : setColumn config "epoch" n = config ++ [("epoch", n)] := by
    unfold setColumn
    rw [if_neg]
    simp only [List.any_eq_true, not_exists]
    intro p hp
    obtain ⟨hpc, hpe⟩ := hp
    have hne := List.all_eq_true.mp hE p hpc
    simp only [decide_eq_true_eq] at hne hpe
    exact hne hpe
  have h1 : (benchmark_surrogate s config n).map Prod.fst = s.labelHeaders := by
    unfold benchmark_surrogate
    rw [hset, List.map_map]
    exact List.enum_map_snd s.labelHeaders
  refine ⟨h1, ?_, h1 ▸ hnodup⟩
  unfold benchmark_surrogate
  rw [hset, List.map_map]
  exact enum_map_getD s.labelHeaders (s.predictFn (config ++ [("epoch", n)])) hlen

/-- Witness for C8 at a two-output surrogate and a one-field config. -/
theorem C8_surrogate_output_witness :
    ([("w", (2 : Int))].all (fun p => decide (p.1 ≠ "epoch")) = true) ∧
    ((Surrogate.mk ["a", "b"] (fun _ => [3, 4])).predictFn
        ([("w", 2)] ++ [("epoch", 5)])).length =
      (Surrogate.mk ["a", "b"] (fun _ => [3, 4])).labelHeaders.length ∧
    (["a", "b"] : List String).Nodup ∧
    (benchmark_surrogate (Surrogate.mk ["a", "b"] (fun _ => [3, 4]))
      [("w", 2)] 5).map Prod.fst = ["a", "b"] ∧
    (benchmark_surrogate (Surrogate.mk ["a", "b"] (fun _ => [3, 4]))
      [("w", 2)] 5).map Prod.snd = [3, 4] := by
  have h := C8_surrogate_output (Surrogate.mk ["a", "b"] (fun _ => [3, 4]))
    [("w", 2)] 5 (by decide) rfl (by decide)
  exact ⟨by decide, rfl, by decide, h.1, h.2.1⟩

/-- C9: constructing a `Benchmark` with the default `model_path = True`
always raises before the surrogate load is reached (the result is never
`.ok`), and the raised error is the `AttributeError` from `True.exists()`,
not the documented "a path must be given" assertion. -/
theorem C9_default_path_attribute_error (dirExists : String → Bool) :
    benchmark_init dirExists (PyVal.pybool true) =
      Except.error InitError.attributeErrorNoExists ∧
    InitError.attributeErrorNoExists ≠ InitError.assertPathRequired :=
  ⟨rfl, by decide⟩

end JahsBench

namespace CleanData

/-- The sorted distinct run list has no duplicates. -/
theorem sortedRuns_nodup (t : List Row) : (sortedRuns t).Nodup :=
  (List.mergeSort_perm ((t.map runId).dedup) runLe).nodup_iff.mpr
    (List.nodup_dedup _)

/-- The sorted distinct run list holds exactly the runs of the table. -/
theorem mem_sortedRuns (t : List Row) (rid : Nat × Nat) :
    rid ∈ sortedRuns t ↔ ∃ r ∈ t, runId r = rid := by
  unfold sortedRuns
  rw [(List.mergeSort_perm _ runLe).mem_iff, List.mem_dedup, List.mem_map]

/-- The sorted distinct epoch list holds exactly the epochs of the table. -/
theorem mem_sortedEpochs (t : List Row) (e : Int) :
    e ∈ sortedEpochs t ↔ ∃ r ∈ t, r.epoch = e := by
  unfold sortedEpochs
  rw [(List.mergeSort_perm _ _).mem_iff, List.mem_dedup, List.mem_map]

/-- For a table with unique row keys, the wide-table cell lookup finds `r`
exactly when `r` is the table's row with that key. -/
theorem findRow_eq_some {t : List Row} (Hk : (t.map rowKey).Nodup)
    (rid : Nat × Nat) (e : Int) (r : Row) :
    findRow t rid e = some r ↔ r ∈ t ∧ runId r = rid ∧ r.epoch = e := by
  unfold findRow
  constructor
  · intro h
    have hmem := List.mem_of_find?_eq_some h
    have hp := List.find?_some h
    simp only [decide_eq_true_eq] at hp
    exact ⟨hmem, hp.1, hp.2⟩
  · rintro ⟨hmem, hrid, hep⟩
    have hex : ∃ x ∈ t, (fun x => decide (runId x = rid ∧ x.epoch = e)) x = true :=
      ⟨r, hmem, by simp [hrid, hep]⟩
    obtain ⟨r', hr'⟩ := Option.isSome_iff_exists.mp (List.find?_isSome.mpr hex)
    have hmem' := List.mem_of_find?_eq_some hr'
    have hp' := List.find?_some hr'
    simp only [decide_eq_true_eq] at hp'
    have hkey : rowKey r' = rowKey r := by
      unfold rowKey
      rw [hp'.1, hp'.2, hrid, hep]
    rw [List.inj_on_of_nodup_map Hk hmem' hmem hkey] at hr'
    exact hr'

/-- Any entry emitted by the stacked wide-table cell at `(·, e)` with column
position `i` carries ModelIndex `i` and Epoch `e`. -/
theorem anonEntry_epoch {t : List Row} {rid : Nat × Nat} {i : Nat} {e : Int}
    {a : ARow}
    (h : (match findRow t rid e with
          | some r => if r.cells.any (fun c => c.isSome) then
              some (⟨i, e, r.cells⟩ : ARow) else none
          | none => none) = some a) :
    a.modelIdx = i ∧ a.epoch = e := by
  cases hf : findRow t rid e with
  | none => rw [hf] at h; exact absurd h (by simp)
  | some r =>
    simp only [hf] at h
    by_cases hc : r.cells.any (fun c => c.isSome) = true
    · rw [if_pos hc] at h
      cases Option.some_inj.mp h
      exact ⟨rfl, rfl⟩
    · rw [if_neg hc] at h
      exact absurd h (by simp)

end CleanData

namespace CleanData

/-- Looking up a member's position finds it. -/
theorem getElem?_posIn {l : List (Nat × Nat)} {x : Nat × Nat} (h : x ∈ l) :
    l[posIn l x]? = some x := by
  induction l with
  | nil => cases h
  | cons a l ih =>
    by_cases hax : a = x
    · simp [posIn, hax]
    · have hx : x ∈ l := by
        rcases List.mem_cons.mp h with h1 | h1
        · exact absurd h1.symm hax
        · exact h1
      simp only [posIn, if_neg hax, List.getElem?_cons_succ]
      exact ih hx

/-- A member's position is in range. -/
theorem posIn_lt_length {l : List (Nat × Nat)} {x : Nat × Nat} (h : x ∈ l) :
    posIn l x < l.length := by
  induction l with
  | nil => cases h
  | cons a l ih =>
    by_cases hax : a = x
    · simp [posIn, hax]
    · have hx : x ∈ l := by
        rcases List.mem_cons.mp h with h1 | h1
        · exact absurd h1.symm hax
        · exact h1
      simp only [posIn, if_neg hax, List.length_cons]
      exact Nat.succ_lt_succ (ih hx)

/-- In a duplicate-free list positions are unique. -/
theorem posIn_eq_of_getElem? {l : List (Nat × Nat)} (hn : l.Nodup) {i : Nat}
    {x : Nat × Nat} (h : l[i]? = some x) : posIn l x = i := by
  induction l generalizing i with
  | nil => simp at h
  | cons a l ih =>
    cases i with
    | zero =>
      simp only [List.getElem?_cons_zero] at h
      have hax : a = x := Option.some_inj.mp h
      simp [posIn, hax]
    | succ i =>
      simp only [List.getElem?_cons_succ] at h
      have hx : x ∈ l := List.getElem?_mem h
      have hax : a ≠ x := fun he => (List.nodup_cons.mp hn).1 (he ▸ hx)
      simp only [posIn, if_neg hax]
      rw [ih (List.nodup_cons.mp hn).2 h]

/-- Row-wise characterization of the anonymization: for a table with unique
row keys and no all-NaN rows, the stacked output consists exactly of the
images of the original rows under `anonRow`. -/
theorem mem_anonymize {t : List Row} (Hk : (t.map rowKey).Nodup)
    (Hnn : ∀ r ∈ t, r.cells.any (fun c => c.isSome) = true) (a : ARow) :
    a ∈ anonymize t ↔ ∃ r ∈ t, anonRow t r = a := by
  unfold anonymize
  rw [List.mem_flatMap]
  constructor
  · rintro ⟨p, hp, hain⟩
    rw [List.mem_filterMap] at hain
    obtain ⟨e, he, hfe⟩ := hain
    cases hfind : findRow t p.2 e with
    | none =>
      simp only [hfind] at hfe
      exact absurd hfe (by simp)
    | some r =>
      simp only [hfind] at hfe
      rw [findRow_eq_some Hk] at hfind
      obtain ⟨hrt, hrid, hrep⟩ := hfind
      rw [if_pos (Hnn r hrt)] at hfe
      have ha : (⟨p.1, e, r.cells⟩ : ARow) = a := Option.some_inj.mp hfe
      refine ⟨r, hrt, ?_⟩
      rw [← ha]
      unfold anonRow
      have hpe : (sortedRuns t)[p.1]? = some p.2 := List.mem_enum_iff_getElem?.mp hp
      have hidx : posIn (sortedRuns t) (runId r) = p.1 := by
        rw [hrid]
        exact posIn_eq_of_getElem? (sortedRuns_nodup t) hpe
      rw [hidx, hrep]
  · rintro ⟨r, hrt, hra⟩
    have hmem : runId r ∈ sortedRuns t := (mem_sortedRuns t _).mpr ⟨r, hrt, rfl⟩
    refine ⟨(posIn (sortedRuns t) (runId r), runId r), ?_, ?_⟩
    · rw [List.mem_enum_iff_getElem?]
      exact getElem?_posIn hmem
    · rw [List.mem_filterMap]
      refine ⟨r.epoch, (mem_sortedEpochs t _).mpr ⟨r, hrt, rfl⟩, ?_⟩
      have hf : findRow t (runId r) r.epoch = some r :=
        (findRow_eq_some Hk _ _ _).mpr ⟨hrt, rfl, rfl⟩
      simp only [hf]
      rw [if_pos (Hnn r hrt)]
      exact congrArg some hra

/-- The stacked output never repeats a (ModelIndex, Epoch) cell. -/
theorem anonymize_nodup (t : List Row) : (anonymize t).Nodup := by
  unfold anonymize
  rw [List.nodup_flatMap]
  constructor
  · intro p _
    apply List.Nodup.filterMap ?_
      ((List.mergeSort_perm _ _).nodup_iff.mpr (List.nodup_dedup _))
    intro e e' a ha ha'
    have h1 := (anonEntry_epoch ha).2
    have h2 := (anonEntry_epoch ha').2
    rw [← h1, ← h2]
  · have h1 : (List.map Prod.fst (sortedRuns t).enum).Nodup := by
      rw [List.enum_map_fst]
      exact List.nodup_range _
    have h2 : (sortedRuns t).enum.Pairwise (fun p q => p.1 ≠ q.1) :=
      List.pairwise_map.mp h1
    apply List.Pairwise.imp ?_ h2
    intro p q hne a hap haq
    rw [List.mem_filterMap] at hap haq
    obtain ⟨e, -, hfe⟩ := hap
    obtain ⟨e', -, hfe'⟩ := haq
    have hm1 := (anonEntry_epoch hfe).1
    have hm2 := (anonEntry_epoch hfe').1
    exact hne (by rw [← hm1, ← hm2])

/-- For a table with unique row keys, `anonRow` is injective on the table. -/
theorem anonRow_map_nodup {t : List Row} (Hk : (t.map rowKey).Nodup) :
    (t.map (anonRow t)).Nodup := by
  have tnd : t.Nodup := List.Nodup.of_map rowKey Hk
  apply List.Nodup.map_on ?_ tnd
  intro x hx y hy hxy
  have h1 : posIn (sortedRuns t) (runId x) = posIn (sortedRuns t) (runId y) :=
    congrArg ARow.modelIdx hxy
  have h2 : x.epoch = y.epoch := congrArg ARow.epoch hxy
  have hmx : runId x ∈ sortedRuns t := (mem_sortedRuns t _).mpr ⟨x, hx, rfl⟩
  have hmy : runId y ∈ sortedRuns t := (mem_sortedRuns t _).mpr ⟨y, hy, rfl⟩
  have hx' : (sortedRuns t)[posIn (sortedRuns t) (runId x)]? = some (runId x) :=
    getElem?_posIn hmx
  have hy' : (sortedRuns t)[posIn (sortedRuns t) (runId y)]? = some (runId y) :=
    getElem?_posIn hmy
  rw [h1] at hx'
  have hrid : runId x = runId y := Option.some_inj.mp (hx'.symm.trans hy')
  exact List.inj_on_of_nodup_map Hk hx hy (by unfold rowKey; rw [hrid, h2])

/-- The anonymization output is a permutation of the original rows re-keyed
by `anonRow`: no (run, epoch) cell is gained or lost. -/
theorem anonymize_perm {t : List Row} (Hk : (t.map rowKey).Nodup)
    (Hnn : ∀ r ∈ t, r.cells.any (fun c => c.isSome) = true) :
    (anonymize t).Perm (t.map (anonRow t)) := by
  rw [List.perm_ext_iff_of_nodup (anonymize_nodup t) (anonRow_map_nodup Hk)]
  intro a
  rw [mem_anonymize Hk Hnn a, List.mem_map]

end CleanData

namespace CleanData

/-- C5: for a table with unique (run, epoch) row keys and no all-NaN rows
(the NaN filter guarantees the latter for any table with at least one data
column), the unstack–reindex–stack round trip preserves the multiset of
(run, epoch) pairs exactly: same row count, same per-(run, epoch) and
per-run row counts under the dense re-keying `run ↦ ModelIndex`, every
ModelIndex in range, every index in range realized. -/
theorem C5_anonymize_bijective (t : List Row) (Hk : (t.map rowKey).Nodup)
    (Hnn : ∀ r ∈ t, r.cells.any (fun c => c.isSome) = true) :
    (anonymize t).length = t.length ∧
    (∀ i rid, (sortedRuns t)[i]? = some rid →
      (∀ e : Int, (anonymize t).countP
          (fun a => decide (a.modelIdx = i ∧ a.epoch = e)) =
        t.countP (fun r => decide (runId r = rid ∧ r.epoch = e))) ∧
      (anonymize t).countP (fun a => decide (a.modelIdx = i)) =
        t.countP (fun r => decide (runId r = rid))) ∧
    (∀ a ∈ anonymize t, a.modelIdx < (sortedRuns t).length) ∧
    (∀ i, i < (sortedRuns t).length → ∃ a ∈ anonymize t, a.modelIdx = i) := by
  have hperm := anonymize_perm Hk Hnn
  refine ⟨?_, ?_, ?_, ?_⟩
  · rw [hperm.length_eq, List.length_map]
  · intro i rid hi
    have hidx : ∀ r ∈ t, (posIn (sortedRuns t) (runId r) = i ↔ runId r = rid) := by
      intro r hr
      have hmr : runId r ∈ sortedRuns t := (mem_sortedRuns t _).mpr ⟨r, hr, rfl⟩
      constructor
      · intro h
        have h1 := getElem?_posIn hmr
        rw [h] at h1
        exact Option.some_inj.mp (h1.symm.trans hi)
      · intro h
        rw [h]
        exact posIn_eq_of_getElem? (sortedRuns_nodup t) hi
    constructor
    · intro e
      rw [hperm.countP_eq, List.countP_map]
      apply List.countP_congr
      intro r hr
      simp only [Function.comp_apply, anonRow, decide_eq_true_eq]
      exact and_congr_left (fun _ => hidx r hr)
    · rw [hperm.countP_eq, List.countP_map]
      apply List.countP_congr
      intro r hr
      simp only [Function.comp_apply, anonRow, decide_eq_true_eq]
      exact hidx r hr
  · intro a ha
    obtain ⟨r, hr, hra⟩ := (mem_anonymize Hk Hnn a).mp ha
    rw [← hra]
    exact posIn_lt_length ((mem_sortedRuns t _).mpr ⟨r, hr, rfl⟩)
  · intro i hi
    have hmem : (sortedRuns t)[i] ∈ sortedRuns t := List.getElem_mem hi
    obtain ⟨r, hr, hrid⟩ := (mem_sortedRuns t _).mp hmem
    refine ⟨anonRow t r, (mem_anonymize Hk Hnn _).mpr ⟨r, hr, rfl⟩, ?_⟩
    show posIn (sortedRuns t) (runId r) = i
    rw [hrid]
    exact posIn_eq_of_getElem? (sortedRuns_nodup t) (List.getElem?_eq_getElem hi)

/-- Witness for C5 on a three-row table holding two runs. -/
theorem C5_anonymize_bijective_witness :
    (([⟨1, 0, 0, 0, [some 1]⟩, ⟨1, 0, 1, 0, [some 2]⟩,
        ⟨0, 5, 1, 0, [some 3]⟩] : List Row).map rowKey).Nodup ∧
    (∀ r ∈ ([⟨1, 0, 0, 0, [some 1]⟩, ⟨1, 0, 1, 0, [some 2]⟩,
        ⟨0, 5, 1, 0, [some 3]⟩] : List Row),
      r.cells.any (fun c => c.isSome) = true) ∧
    (anonymize [⟨1, 0, 0, 0, [some 1]⟩, ⟨1, 0, 1, 0, [some 2]⟩,
        ⟨0, 5, 1, 0, [some 3]⟩]).length =
      ([⟨1, 0, 0, 0, [some 1]⟩, ⟨1, 0, 1, 0, [some 2]⟩,
        ⟨0, 5, 1, 0, [some 3]⟩] : List Row).length :=
  ⟨by decide, by decide,
    (C5_anonymize_bijective
      [⟨1, 0, 0, 0, [some 1]⟩, ⟨1, 0, 1, 0, [some 2]⟩, ⟨0, 5, 1, 0, [some 3]⟩]
      (by decide) (by decide)).1⟩

end CleanData
